import Mathlib

/-!
Verification of the source-annotation logic of `static/script.js`: the
KB-identifier extraction `extractKbDigits`, the display-name resolution and
deduplication inside `sendQuestion`, the derived view/download links, the
chat-history update, and `escapeHtml`. JavaScript values are embedded as an
inductive type with explicit truthiness; the regex search is embedded as a
leftmost-match scan over the character list.
-/

/-- JavaScript runtime values as far as the chat client's data paths
distinguish them: `null`, `undefined`, booleans, numbers and strings. -/
inductive JSVal where
  | vnull
  | vundef
  | vbool (b : Bool)
  | vnum (n : Int)
  | vstr (s : String)
deriving DecidableEq

/-- Truthiness of a JavaScript value, as `if (v)` and `v || w` test it:
`null`, `undefined`, `false`, `0` and the empty string are falsy, every
other value is truthy. -/
def truthy : JSVal → Bool
  | .vnull => false
  | .vundef => false
  | .vbool b => b
  | .vnum n => n != 0
  | .vstr s => s != ""

/-- Longest run of decimal digits at the head of the character list: the
greedy capture of a trailing digit group. -/
def digitRun : List Char → List Char
  | [] => []
  | c :: cs => if c.isDigit then c :: digitRun cs else []

/-- One anchored attempt of the case-insensitive pattern: literal `KB`, an
optional single `_` or `-` separator, then the greedy digit run, which must
have length at least 3; returns the captured digit run. A separator followed
by fewer than 3 digits fails the whole attempt, because backtracking into
the no-separator alternative immediately meets the non-digit separator. -/
def matchKbAt : List Char → Option (List Char)
  | c0 :: c1 :: c2 :: rest2 =>
    if (c0 = 'K' ∨ c0 = 'k') ∧ (c1 = 'B' ∨ c1 = 'b') then
      if c2 = '_' ∨ c2 = '-' then
        if 3 ≤ (digitRun rest2).length then some (digitRun rest2) else none
      else
        if 3 ≤ (digitRun (c2 :: rest2)).length then some (digitRun (c2 :: rest2)) else none
    else none
  | _ => none

/-- Leftmost match of the KB pattern, scanning start positions left to
right as `String.prototype.match` does for an unanchored regex. -/
def matchKb : List Char → Option (List Char)
  | [] => none
  | c :: cs =>
    match matchKbAt (c :: cs) with
    | some r => some r
    | none => matchKb cs

/-- Remove every leading zero character, as `replace` of an anchored
one-or-more-zeros pattern with the empty string does. -/
def stripLeadingZeros : List Char → List Char
  | [] => []
  | c :: cs => if c = '0' then stripLeadingZeros cs else c :: cs

/-- The captured digit run once leading zeros are removed, except that an
all-zero run is kept whole: the stripped run when it is nonempty, the
original run otherwise. -/
def rawDigits (run : List Char) : List Char :=
  if stripLeadingZeros run = [] then run else stripLeadingZeros run

/-- Left-pad with zero characters to length 9; a longer input is returned
unchanged because the pad count truncates at zero. -/
def padStart9 (s : List Char) : List Char :=
  List.replicate (9 - s.length) '0' ++ s

/-- Embedding of `extractKbDigits` from `static/script.js` on a string
argument: an empty filename yields `null`; otherwise the first occurrence of
the KB pattern is located, its digit run is zero-stripped (kept whole when
all zeros) and padded to at least nine digits; no occurrence yields `null`. -/
def extractKbDigits (filename : String) : Option String :=
  if filename = "" then none
  else (matchKb filename.toList).map (fun run => String.mk (padStart9 (rawDigits run)))

/-- The same function on an arbitrary JavaScript value: the guard rejects
every non-string argument (and an empty string, handled above). -/
def extractKbDigitsVal : JSVal → Option String
  | .vstr s => extractKbDigits s
  | _ => none

/-- A source record returned by the backend: the four metadata keys the
client consults, each possibly absent. -/
structure SourceRecord where
  source : Option JSVal
  title : Option JSVal
  file : Option JSVal
  filename : Option JSVal
deriving DecidableEq

/-- Property read on a JavaScript object: an absent key reads as `undefined`. -/
def jsGet (o : Option JSVal) : JSVal := o.getD JSVal.vundef

/-- JavaScript `a || b`: `a` when truthy, otherwise `b`. -/
def orElseJS (a b : JSVal) : JSVal := if truthy a then a else b

/-- Embedding of the display-name resolution
`(s && (s.source || s.title || s.file || s.filename)) || ""`: a falsy
record and a record with no truthy candidate key both resolve to the empty
string; otherwise the first truthy candidate value wins. -/
def resolveName : Option SourceRecord → JSVal
  | none => JSVal.vstr ""
  | some r =>
    orElseJS
      (orElseJS (jsGet r.source)
        (orElseJS (jsGet r.title) (orElseJS (jsGet r.file) (jsGet r.filename))))
      (JSVal.vstr "")

/-- The four candidate values of a record in priority order, an absent key
reading as `undefined`; a falsy record contributes no candidates. -/
def fourVals : Option SourceRecord → List JSVal
  | none => []
  | some r => [jsGet r.source, jsGet r.title, jsGet r.file, jsGet r.filename]

/-- Follows the spec's words, for comparison with `resolveName`: the value
of the first key among source, title, file, filename that is present and
non-null — even when that value is the empty string — and the empty string
when none qualifies. -/
def firstPresentNonNull : List (Option JSVal) → JSVal
  | [] => JSVal.vstr ""
  | o :: rest =>
    match o with
    | some v => if v = JSVal.vnull then firstPresentNonNull rest else v
    | none => firstPresentNonNull rest

/-- Follows the spec's words: display-name resolution by key presence
rather than truthiness. -/
def specResolveName : Option SourceRecord → JSVal
  | none => JSVal.vstr ""
  | some r => firstPresentNonNull [r.source, r.title, r.file, r.filename]

/-- Deduplication loop of `sendQuestion`: a set of seen names and an output
array, keeping each name's first occurrence only. -/
def dedupAux (seen : List JSVal) : List JSVal → List JSVal
  | [] => []
  | x :: xs => if x ∈ seen then dedupAux seen xs else x :: dedupAux (x :: seen) xs

/-- The deduplicated name sequence, starting from no seen names. -/
def dedupNames (l : List JSVal) : List JSVal := dedupAux [] l

/-- Index of the first occurrence of a value in a list (list length when
absent): the order key of first-occurrence ordering. -/
def firstIdx (l : List JSVal) (a : JSVal) : Nat :=
  match l with
  | [] => 0
  | x :: xs => if x = a then 0 else firstIdx xs a + 1

/-- Characters `encodeURIComponent` leaves unescaped: ASCII letters,
digits, and the unreserved marks. -/
def isUnreservedURI (c : Char) : Bool :=
  c.isAlpha || c.isDigit || c = '-' || c = '_' || c = '.' || c = '!' || c = '~' ||
    c = '*' || c = Char.ofNat 39 || c = '(' || c = ')'

/-- Uppercase hexadecimal digit of a value below 16. -/
def hexUpper (n : Nat) : Char := if n < 10 then Char.ofNat (48 + n) else Char.ofNat (55 + n)

/-- Percent-encoding of one byte. -/
def percentByte (b : Nat) : List Char := ['%', hexUpper (b / 16), hexUpper (b % 16)]

/-- One character of `encodeURIComponent` output: unreserved characters
pass through, all others are percent-encoded from their UTF-8 bytes. -/
def encodeURIComponentChar (c : Char) : List Char :=
  if isUnreservedURI c then [c]
  else (((String.singleton c).toUTF8.toList.map (fun b => percentByte b.toNat))).flatten

/-- Character-by-character `encodeURIComponent` body. -/
def encodeChars : List Char → List Char
  | [] => []
  | c :: cs => encodeURIComponentChar c ++ encodeChars cs

/-- Embedding of JavaScript `encodeURIComponent`. -/
def encodeURIComponent (s : String) : String := String.mk (encodeChars s.toList)

/-- Knowledge-base annotation derived for one unique display name. -/
structure AnnotatedSource where
  displayName : JSVal
  kbId : Option String
  viewUrl : Option String
  downloadUrl : Option String
deriving DecidableEq

/-- Base of the external KB page link built in `sendQuestion`. -/
def kbViewBase : String := "https://resource.digital.thermofisher.com/kb/article.aspx?n="

/-- Base of the download link built in `sendQuestion`. -/
def kbDownloadBase : String := "/download_kb?kb="

/-- Per-name annotation step of `sendQuestion`: when `extractKbDigits`
yields a truthy id the two links are interpolated from its encoding,
otherwise no links are built. -/
def annotateOne (nm : JSVal) : AnnotatedSource :=
  match extractKbDigitsVal nm with
  | some p =>
    if p = "" then ⟨nm, some p, none, none⟩
    else
      ⟨nm, some p, some (kbViewBase ++ encodeURIComponent p),
        some (kbDownloadBase ++ encodeURIComponent p)⟩
  | none => ⟨nm, none, none, none⟩

/-- SourceAnnotator: resolve the display names, drop repeated names keeping
first occurrences, and annotate each retained name. -/
def annotate (records : List (Option SourceRecord)) : List AnnotatedSource :=
  (dedupNames (records.map resolveName)).map annotateOne

/-- Module-level mutable state of `static/script.js`. -/
structure GlobalState where
  chat_history : List (String × JSVal)
  selectedFiles : List String
deriving DecidableEq

/-- Call of the annotation pass with the module state threaded through:
its body reads and writes no module state. -/
def runAnnotate (st : GlobalState) (rs : List (Option SourceRecord)) :
    List AnnotatedSource × GlobalState := (annotate rs, st)

/-- Call of `extractKbDigits` with the module state threaded through. -/
def runExtract (st : GlobalState) (v : JSVal) : Option String × GlobalState :=
  (extractKbDigitsVal v, st)

/-- Whitespace trim of a character list on both ends. -/
def trimChars (l : List Char) : List Char :=
  ((l.dropWhile Char.isWhitespace).reverse.dropWhile Char.isWhitespace).reverse

/-- JavaScript `String.prototype.trim` as `sendQuestion` applies it. -/
def jsTrim (s : String) : String := String.mk (trimChars s.toList)

/-- Response body of `POST /api/query` as far as the history update reads
it: the `error`, `detail` and `answer` fields, each possibly absent. -/
structure RespData where
  error : Option JSVal
  detail : Option JSVal
  answer : Option JSVal
deriving DecidableEq

/-- Outcome of the fetch: the request threw, or a JSON body was decoded. -/
inductive FetchResult where
  | thrown
  | ok (data : RespData)
deriving DecidableEq

/-- Fallback answer text used when `data.answer` is falsy. -/
def defaultAnswer : String :=
  "I don" ++ String.singleton (Char.ofNat 39) ++ "t know — not in the documents."

/-- The answer recorded in the transcript: `data.answer || default`. -/
def answerOf (d : RespData) : JSVal :=
  if truthy (jsGet d.answer) then jsGet d.answer else JSVal.vstr defaultAnswer

/-- Effect of one `sendQuestion` turn on `chat_history`: an all-whitespace
input returns early; a thrown request and a truthy `data.error` leave the
history unchanged; otherwise the `[question, answer]` pair is appended. -/
def sendQuestionHist (hist : List (String × JSVal)) (input : String) (r : FetchResult) :
    List (String × JSVal) :=
  if jsTrim input = "" then hist
  else
    match r with
    | .thrown => hist
    | .ok d =>
      if truthy (jsGet d.error) then hist else hist ++ [(jsTrim input, answerOf d)]

/-- Global single-character replacement, the effect of `replace` with a
global one-character pattern. -/
def replaceChar (c : Char) (rep : List Char) : List Char → List Char
  | [] => []
  | x :: xs => (if x = c then rep else [x]) ++ replaceChar c rep xs

/-- The double-quote character. -/
def quotChar : Char := Char.ofNat 34

/-- The apostrophe character. -/
def aposChar : Char := Char.ofNat 39

/-- Embedding of `escapeHtml`: a non-string argument yields the empty
string; a string has ampersands escaped first, then angle brackets and the
two quote characters. -/
def escapeHtml : JSVal → String
  | JSVal.vstr s =>
    String.mk (replaceChar aposChar ("&#039;".toList)
      (replaceChar quotChar ("&quot;".toList)
        (replaceChar '>' ("&gt;".toList)
          (replaceChar '<' ("&lt;".toList)
            (replaceChar '&' ("&amp;".toList) s.toList)))))
  | _ => ""

/-- Occurrence predicate for the KB pattern: no start position matches. -/
def noKbOccurrence (cs : List Char) : Prop := ∀ i, matchKbAt (cs.drop i) = none

/-- No start position strictly before `i` matches the KB pattern. -/
def noneBefore (cs : List Char) (i : Nat) : Prop :=
  ∀ j, j < i → matchKbAt (cs.drop j) = none

instance (cs : List Char) : Decidable (noKbOccurrence cs) := by
  have h : noKbOccurrence cs ↔ ∀ i, i < cs.length + 1 → matchKbAt (cs.drop i) = none := by
    constructor
    · intro h i _
      exact h i
    · intro h i
      by_cases hi : i < cs.length + 1
      · exact h i hi
      · have : cs.length ≤ i := by omega
        rw [List.drop_eq_nil_of_le this]
        rfl
  exact decidable_of_iff' _ h

instance (cs : List Char) (i : Nat) : Decidable (noneBefore cs i) :=
  inferInstanceAs (Decidable (∀ j, j < i → matchKbAt (cs.drop j) = none))

/-- Record whose `source` key holds the name "A". -/
def recA : SourceRecord := ⟨some (JSVal.vstr "A"), none, none, none⟩

/-- Record carrying the same display name "A" in a different key. -/
def recA2 : SourceRecord := ⟨none, some (JSVal.vstr "A"), none, none⟩

/-- Record whose `source` key is present with the empty string and whose
`title` key holds "A". -/
def recC3 : SourceRecord := ⟨some (JSVal.vstr ""), some (JSVal.vstr "A"), none, none⟩

/-- Record whose `source` key holds the non-string number 42. -/
def recNum : SourceRecord := ⟨some (JSVal.vnum 42), none, none, none⟩

/-- Record whose present keys are all falsy: a null, an empty string and a
zero. -/
def recFalsy : SourceRecord := ⟨some JSVal.vnull, none, some (JSVal.vstr ""), some (JSVal.vnum 0)⟩

/-- Response whose `error` key is present but holds the falsy empty string,
with answer "A". -/
def dErrEmpty : RespData := ⟨some (JSVal.vstr ""), none, some (JSVal.vstr "A")⟩

/-! ### Basic facts about strings and the digit machinery -/

theorem toList_mk (l : List Char) : (String.mk l).toList = l := rfl

theorem length_mk (l : List Char) : (String.mk l).length = l.length := rfl

theorem mem_digitRun {l : List Char} {c : Char} (h : c ∈ digitRun l) : c.isDigit = true := by
  induction l with
  | nil => simp [digitRun] at h
  | cons a as ih =>
    simp only [digitRun] at h
    split at h
    · rcases List.mem_cons.mp h with rfl | h2
      · assumption
      · exact ih h2
    · simp at h

theorem mem_stripLeadingZeros {l : List Char} {c : Char} (h : c ∈ stripLeadingZeros l) :
    c ∈ l := by
  induction l with
  | nil => simp [stripLeadingZeros] at h
  | cons a as ih =>
    simp only [stripLeadingZeros] at h
    split at h
    · exact List.mem_cons_of_mem a (ih h)
    · exact h

theorem rawDigits_subset {run : List Char} {c : Char} (h : c ∈ rawDigits run) : c ∈ run := by
  unfold rawDigits at h
  split at h
  · exact h
  · exact mem_stripLeadingZeros h

theorem padStart9_length (s : List Char) : (padStart9 s).length = max 9 s.length := by
  simp only [padStart9, List.length_append, List.length_replicate]
  omega

theorem matchKbAt_digits {cs run : List Char} (h : matchKbAt cs = some run) :
    ∀ c ∈ run, c.isDigit = true := by
  cases cs with
  | nil => exact Option.noConfusion h
  | cons c0 t =>
    cases t with
    | nil => exact Option.noConfusion h
    | cons c1 t2 =>
      cases t2 with
      | nil => exact Option.noConfusion h
      | cons c2 rest2 =>
        simp only [matchKbAt] at h
        split at h
        · split at h
          · split at h
            · obtain rfl := Option.some.inj h
              exact fun c hc => mem_digitRun hc
            · exact Option.noConfusion h
          · split at h
            · obtain rfl := Option.some.inj h
              exact fun c hc => mem_digitRun hc
            · exact Option.noConfusion h
        · exact Option.noConfusion h

theorem matchKb_digits : ∀ (cs run : List Char), matchKb cs = some run →
    ∀ c ∈ run, c.isDigit = true := by
  intro cs
  induction cs with
  | nil => intro run h; exact Option.noConfusion h
  | cons c cs ih =>
    intro run h
    cases hA : matchKbAt (c :: cs) with
    | some r =>
      rw [show matchKb (c :: cs) = some r by simp only [matchKb, hA]] at h
      obtain rfl := Option.some.inj h
      exact matchKbAt_digits hA
    | none =>
      rw [show matchKb (c :: cs) = matchKb cs by simp only [matchKb, hA]] at h
      exact ih run h

theorem matchKb_none_iff {cs : List Char} : matchKb cs = none ↔ noKbOccurrence cs := by
  unfold noKbOccurrence
  induction cs with
  | nil =>
    constructor
    · intro _ i
      rw [List.drop_nil]
      rfl
    · intro _
      rfl
  | cons c cs ih =>
    constructor
    · intro h i
      cases hA : matchKbAt (c :: cs) with
      | some r =>
        rw [show matchKb (c :: cs) = some r by simp only [matchKb, hA]] at h
        exact Option.noConfusion h
      | none =>
        cases i with
        | zero => simpa using hA
        | succ j =>
          rw [show matchKb (c :: cs) = matchKb cs by simp only [matchKb, hA]] at h
          rw [List.drop_succ_cons]
          exact ih.mp h j
    · intro hall
      have h0 := hall 0
      rw [List.drop_zero] at h0
      simp only [matchKb, h0]
      apply ih.mpr
      intro j
      have := hall (j + 1)
      rwa [List.drop_succ_cons] at this

theorem matchKb_eq_of_first : ∀ (cs : List Char) (i : Nat) (run : List Char),
    matchKbAt (cs.drop i) = some run → noneBefore cs i → matchKb cs = some run := by
  intro cs i
  induction i generalizing cs with
  | zero =>
    intro run h1 _
    rw [List.drop_zero] at h1
    cases cs with
    | nil => exact Option.noConfusion h1
    | cons c cs => simp only [matchKb, h1]
  | succ n ih =>
    intro run h1 h2
    cases cs with
    | nil =>
      rw [List.drop_nil] at h1
      exact Option.noConfusion h1
    | cons c cs =>
      have h0 : matchKbAt (c :: cs) = none := by
        have := h2 0 (Nat.succ_pos n)
        rwa [List.drop_zero] at this
      simp only [matchKb, h0]
      apply ih cs run
      · rwa [List.drop_succ_cons] at h1
      · intro j hj
        have := h2 (j + 1) (Nat.succ_lt_succ hj)
        rwa [List.drop_succ_cons] at this

theorem extract_some_eq {name p : String} (h : extractKbDigits name = some p) :
    ∃ run, matchKb name.toList = some run ∧ p = String.mk (padStart9 (rawDigits run)) := by
  unfold extractKbDigits at h
  split at h
  · exact Option.noConfusion h
  · rw [Option.map_eq_some'] at h
    rcases h with ⟨run, hm, hp⟩
    exact ⟨run, hm, hp.symm⟩

theorem extract_some_ne_empty {name p : String} (h : extractKbDigits name = some p) :
    p ≠ "" := by
  rcases extract_some_eq h with ⟨run, _, rfl⟩
  intro he
  have hlen := congrArg String.length he
  rw [length_mk, padStart9_length] at hlen
  simp [String.length] at hlen

theorem extract_some_digits {name p : String} (h : extractKbDigits name = some p) :
    ∀ c ∈ p.toList, c.isDigit = true := by
  rcases extract_some_eq h with ⟨run, hm, rfl⟩
  intro c hc
  rw [toList_mk] at hc
  rcases List.mem_append.mp hc with h1 | h2
  · rw [List.eq_of_mem_replicate h1]
    decide
  · exact matchKb_digits _ _ hm c (rawDigits_subset h2)

theorem extract_some_length {name p : String} (h : extractKbDigits name = some p) :
    ∃ run, matchKb name.toList = some run ∧ p.length = max 9 (rawDigits run).length := by
  rcases extract_some_eq h with ⟨run, hm, rfl⟩
  exact ⟨run, hm, by rw [length_mk, padStart9_length]⟩

theorem extractVal_some {v : JSVal} {p : String} (h : extractKbDigitsVal v = some p) :
    ∃ s, v = JSVal.vstr s ∧ extractKbDigits s = some p := by
  cases v with
  | vstr s => exact ⟨s, rfl, h⟩
  | vnull => exact Option.noConfusion h
  | vundef => exact Option.noConfusion h
  | vbool b => exact Option.noConfusion h
  | vnum n => exact Option.noConfusion h

theorem encodeChars_of_digits {l : List Char} (h : ∀ c ∈ l, c.isDigit = true) :
    encodeChars l = l := by
  induction l with
  | nil => rfl
  | cons a as ih =>
    have ha : a.isDigit = true := h a (List.mem_cons_self a as)
    have hu : isUnreservedURI a = true := by simp [isUnreservedURI, ha]
    simp only [encodeChars, encodeURIComponentChar, hu, if_true]
    rw [ih (fun c hc => h c (List.mem_cons_of_mem a hc))]
    rfl

theorem encodeURIComponent_of_digits {p : String} (h : ∀ c ∈ p.toList, c.isDigit = true) :
    encodeURIComponent p = p := by
  unfold encodeURIComponent
  rw [encodeChars_of_digits h]
  rfl

/-! ### Facts about the deduplication loop -/

theorem dedupAux_length : ∀ (l seen : List JSVal), (dedupAux seen l).length ≤ l.length := by
  intro l
  induction l with
  | nil => intro seen; simp [dedupAux]
  | cons x xs ih =>
    intro seen
    simp only [dedupAux]
    split
    · exact Nat.le_succ_of_le (ih seen)
    · simpa [List.length_cons] using Nat.succ_le_succ (ih (x :: seen))

theorem mem_dedupAux : ∀ {l seen : List JSVal} {a : JSVal},
    a ∈ dedupAux seen l ↔ a ∈ l ∧ a ∉ seen := by
  intro l
  induction l with
  | nil => intro seen a; simp [dedupAux]
  | cons x xs ih =>
    intro seen a
    simp only [dedupAux]
    split
    · rename_i hx
      rw [ih]
      constructor
      · rintro ⟨h1, h2⟩
        exact ⟨List.mem_cons_of_mem x h1, h2⟩
      · rintro ⟨h1, h2⟩
        rcases List.mem_cons.mp h1 with rfl | h1
        · exact absurd hx h2
        · exact ⟨h1, h2⟩
    · rename_i hx
      constructor
      · intro h
        rcases List.mem_cons.mp h with rfl | h
        · exact ⟨List.mem_cons_self a xs, hx⟩
        · rw [ih] at h
          refine ⟨List.mem_cons_of_mem x h.1, ?_⟩
          intro hc
          exact h.2 (List.mem_cons_of_mem x hc)
      · rintro ⟨h1, h2⟩
        by_cases hax : a = x
        · subst hax
          exact List.mem_cons_self a _
        · apply List.mem_cons_of_mem
          rw [ih]
          rcases List.mem_cons.mp h1 with rfl | h1
          · exact absurd rfl hax
          · refine ⟨h1, ?_⟩
            intro hc
            rcases List.mem_cons.mp hc with hc | hc
            · exact hax hc
            · exact h2 hc

theorem mem_dedupNames {l : List JSVal} {a : JSVal} : a ∈ dedupNames l ↔ a ∈ l := by
  unfold dedupNames
  rw [mem_dedupAux]
  simp

theorem dedupAux_nodup : ∀ (l seen : List JSVal), (dedupAux seen l).Nodup := by
  intro l
  induction l with
  | nil => intro seen; simp [dedupAux]
  | cons x xs ih =>
    intro seen
    simp only [dedupAux]
    split
    · exact ih seen
    · rw [List.nodup_cons]
      refine ⟨?_, ih (x :: seen)⟩
      intro hx
      exact (mem_dedupAux.mp hx).2 (List.mem_cons_self x seen)

theorem dedupAux_eq_filter : ∀ (l seen : List JSVal),
    dedupAux seen l = (dedupNames l).filter (fun a => !decide (a ∈ seen)) := by
  intro l
  induction l with
  | nil => intro seen; simp [dedupAux, dedupNames]
  | cons x xs ih =>
    intro seen
    have hnil : dedupNames (x :: xs) = x :: dedupAux [x] xs := by
      simp [dedupNames, dedupAux]
    rw [hnil, List.filter_cons]
    simp only [dedupAux]
    by_cases hx : x ∈ seen
    · rw [if_pos hx]
      have hcnd : (!decide (x ∈ seen)) = false := by simp [hx]
      rw [hcnd]
      simp only [Bool.false_eq_true, if_false]
      rw [ih seen, ih [x], List.filter_filter]
      apply List.filter_congr
      intro a _
      by_cases hax : a = x
      · subst hax
        simp [hx]
      · simp [hax]
    · rw [if_neg hx]
      have hcnd : (!decide (x ∈ seen)) = true := by simp [hx]
      rw [hcnd]
      simp only [if_true]
      rw [ih (x :: seen), ih [x], List.filter_filter]
      congr 1
      apply List.filter_congr
      intro a _
      by_cases hax : a = x
      · subst hax
        simp
      · by_cases has : a ∈ seen <;> simp [hax, has, List.mem_cons]

theorem firstIdx_cons (x : JSVal) (xs : List JSVal) (a : JSVal) :
    firstIdx (x :: xs) a = if x = a then 0 else firstIdx xs a + 1 := rfl

theorem dedup_firstIdx_pairwise : ∀ l : List JSVal,
    List.Pairwise (fun a b => firstIdx l a < firstIdx l b) (dedupNames l) := by
  intro l
  induction l with
  | nil => simp [dedupNames, dedupAux]
  | cons x xs ih =>
    have hd : dedupNames (x :: xs) =
        x :: (dedupNames xs).filter (fun a => !decide (a ∈ ([x] : List JSVal))) := by
      have h1 : dedupNames (x :: xs) = x :: dedupAux [x] xs := by
        simp [dedupNames, dedupAux]
      rw [h1, dedupAux_eq_filter]
    rw [hd]
    refine List.Pairwise.cons ?_ ?_
    · intro b hb
      have hbx : ¬ x = b := by
        have h2 := List.of_mem_filter hb
        simp at h2
        exact fun e => h2 e.symm
      rw [firstIdx_cons, firstIdx_cons, if_pos rfl, if_neg hbx]
      exact Nat.succ_pos _
    · have hsub : List.Pairwise (fun a b => firstIdx xs a < firstIdx xs b)
          ((dedupNames xs).filter (fun a => !decide (a ∈ ([x] : List JSVal)))) :=
        List.Pairwise.sublist (List.filter_sublist _) ih
      refine hsub.imp_of_mem ?_
      intro a b ha hb hab
      have hax : ¬ x = a := by
        have h2 := List.of_mem_filter ha
        simp at h2
        exact fun e => h2 e.symm
      have hbx : ¬ x = b := by
        have h2 := List.of_mem_filter hb
        simp at h2
        exact fun e => h2 e.symm
      rw [firstIdx_cons, firstIdx_cons, if_neg hax, if_neg hbx]
      exact Nat.succ_lt_succ hab

theorem dedupAux_append_elem : ∀ (l seen : List JSVal) (x : JSVal),
    dedupAux seen (l ++ [x]) = dedupAux seen l ++ (if x ∈ seen ∨ x ∈ l then [] else [x]) := by
  intro l
  induction l with
  | nil =>
    intro seen x
    simp only [List.nil_append, dedupAux]
    by_cases hx : x ∈ seen <;> simp [hx, dedupAux]
  | cons y ys ih =>
    intro seen x
    simp only [List.cons_append, dedupAux]
    simp only [List.append_eq]
    by_cases hy : y ∈ seen
    · rw [if_pos hy, if_pos hy, ih]
      congr 1
      have hiff : (x ∈ seen ∨ x ∈ ys) ↔ (x ∈ seen ∨ x ∈ y :: ys) := by
        constructor
        · rintro (h | h)
          · exact Or.inl h
          · exact Or.inr (List.mem_cons_of_mem y h)
        · rintro (h | h)
          · exact Or.inl h
          · rcases List.mem_cons.mp h with rfl | h
            · exact Or.inl hy
            · exact Or.inr h
      exact if_congr hiff rfl rfl
    · rw [if_neg hy, if_neg hy, ih (y :: seen) x]
      simp only [List.cons_append]
      congr 2
      have hiff : (x ∈ y :: seen ∨ x ∈ ys) ↔ (x ∈ seen ∨ x ∈ y :: ys) := by
        simp only [List.mem_cons]
        tauto
      exact if_congr hiff rfl rfl

theorem dedupNames_append_mem {l : List JSVal} {x : JSVal} (h : x ∈ l) :
    dedupNames (l ++ [x]) = dedupNames l := by
  unfold dedupNames
  rw [dedupAux_append_elem]
  rw [if_pos (Or.inr h)]
  simp

theorem annotateOne_displayName (nm : JSVal) : (annotateOne nm).displayName = nm := by
  cases hv : extractKbDigitsVal nm with
  | none => simp [annotateOne, hv]
  | some p => by_cases hp : p = "" <;> simp [annotateOne, hv, hp]

theorem annotate_names (rs : List (Option SourceRecord)) :
    (annotate rs).map AnnotatedSource.displayName = dedupNames (rs.map resolveName) := by
  unfold annotate
  rw [List.map_map]
  have hcomp : AnnotatedSource.displayName ∘ annotateOne = id := by
    funext nm
    exact annotateOne_displayName nm
  rw [hcomp, List.map_id]

theorem mem_replaceChar {c : Char} {rep : List Char} : ∀ {l : List Char} {x : Char},
    x ∈ replaceChar c rep l → x ∈ rep ∨ (x ∈ l ∧ x ≠ c) := by
  intro l
  induction l with
  | nil => intro x h; simp [replaceChar] at h
  | cons a as ih =>
    intro x h
    simp only [replaceChar] at h
    rcases List.mem_append.mp h with h1 | h2
    · split at h1
      · exact Or.inl h1
      · rename_i hac
        have hxa := List.mem_singleton.mp h1
        subst hxa
        exact Or.inr ⟨List.mem_cons_self _ _, hac⟩
    · rcases ih h2 with h3 | ⟨h4, h5⟩
      · exact Or.inl h3
      · exact Or.inr ⟨List.mem_cons_of_mem a h4, h5⟩

/-! ### The claims -/

/-- C1: for every string in which the KB pattern (literal `KB`, optional
single `_` or `-` separator, then 3 or more digits, case-insensitive)
occurs, `extractKbDigits` returns the first matched digit run with leading
zeros stripped (the run kept whole when all zeros), left-padded with zeros
to 9 characters without truncation; in particular `extractKbDigits
"KB0000000" = "000000000"`. The first match is stated declaratively: the
anchored pattern succeeds at position `i` and at no earlier position. -/
theorem extractKbDigits_first_match (name : String) (i : Nat) (run : List Char)
    (h1 : matchKbAt (name.toList.drop i) = some run)
    (h2 : noneBefore name.toList i) :
    extractKbDigits name =
      some (String.mk (List.replicate (9 - (rawDigits run).length) '0' ++ rawDigits run)) ∧
    extractKbDigits "KB0000000" = some "000000000" := by
  constructor
  · have hm : matchKb name.toList = some run := matchKb_eq_of_first _ i run h1 h2
    have hne : ¬ name = "" := by
      intro e
      subst e
      rw [show ("" : String).toList = [] from rfl, List.drop_nil] at h1
      exact Option.noConfusion h1
    unfold extractKbDigits
    rw [if_neg hne, hm]
    rfl
  · decide

/-- Witness for C1: the first KB occurrence of `"xKB_00123.pdf"` starts at
index 1 and captures the run 00123, normalized to `"000000123"`. -/
theorem extractKbDigits_first_match_witness :
    matchKbAt (("xKB_00123.pdf" : String).toList.drop 1) = some ['0', '0', '1', '2', '3'] ∧
    noneBefore ("xKB_00123.pdf" : String).toList 1 ∧
    (extractKbDigits "xKB_00123.pdf" =
      some (String.mk (List.replicate (9 - (rawDigits ['0', '0', '1', '2', '3']).length) '0' ++
        rawDigits ['0', '0', '1', '2', '3'])) ∧
      extractKbDigits "KB0000000" = some "000000000") :=
  ⟨by decide, by decide,
    extractKbDigits_first_match "xKB_00123.pdf" 1 ['0', '0', '1', '2', '3']
      (by decide) (by decide)⟩

/-- C2: the annotated output lists the resolved display names in
first-occurrence order of the input (pairwise increasing first-occurrence
indices, same set of names), its length is at most the input length, no two
output entries share a display name, and appending a record whose resolved
display name was already seen leaves the output unchanged even when its
other fields differ. -/
theorem annotate_dedup_invariants (rs : List (Option SourceRecord)) (r : Option SourceRecord)
    (h : resolveName r ∈ rs.map resolveName) :
    ((annotate rs).map AnnotatedSource.displayName).Nodup ∧
    (annotate rs).length ≤ rs.length ∧
    ((annotate rs).map AnnotatedSource.displayName).toFinset = (rs.map resolveName).toFinset ∧
    List.Pairwise (fun a b => firstIdx (rs.map resolveName) a < firstIdx (rs.map resolveName) b)
      ((annotate rs).map AnnotatedSource.displayName) ∧
    annotate (rs ++ [r]) = annotate rs := by
  have hnames := annotate_names rs
  refine ⟨?_, ?_, ?_, ?_, ?_⟩
  · rw [hnames]
    exact dedupAux_nodup _ _
  · have h1 : (annotate rs).length = (dedupNames (rs.map resolveName)).length := by
      rw [← hnames, List.length_map]
    rw [h1]
    calc (dedupNames (rs.map resolveName)).length
        ≤ (rs.map resolveName).length := dedupAux_length _ _
      _ = rs.length := List.length_map _ _
  · rw [hnames]
    ext a
    simp [List.mem_toFinset, mem_dedupNames]
  · rw [hnames]
    exact dedup_firstIdx_pairwise _
  · unfold annotate
    rw [List.map_append]
    simp only [List.map_cons, List.map_nil]
    rw [dedupNames_append_mem h]

/-- Witness for C2 at two concrete records that carry the display name "A"
in different keys. -/
theorem annotate_dedup_invariants_witness :
    (resolveName (some recA2) ∈ ([some recA] : List (Option SourceRecord)).map resolveName) ∧
    (((annotate [some recA]).map AnnotatedSource.displayName).Nodup ∧
      (annotate [some recA]).length ≤ ([some recA] : List (Option SourceRecord)).length ∧
      ((annotate [some recA]).map AnnotatedSource.displayName).toFinset =
        (([some recA] : List (Option SourceRecord)).map resolveName).toFinset ∧
      List.Pairwise
        (fun a b => firstIdx (([some recA] : List (Option SourceRecord)).map resolveName) a <
          firstIdx (([some recA] : List (Option SourceRecord)).map resolveName) b)
        ((annotate [some recA]).map AnnotatedSource.displayName) ∧
      annotate ([some recA] ++ [some recA2]) = annotate [some recA]) :=
  ⟨by decide, annotate_dedup_invariants [some recA] (some recA2) (by decide)⟩

/-- C3: counterexample — on the record whose `source` key is present with
the empty string and whose `title` key holds "A", the code resolves the
display name to "A" (truthiness skips the empty string), while the claimed
present-and-non-null priority resolves it to the empty string. -/
theorem resolveName_spec_priority_cex :
    specResolveName (some recC3) = JSVal.vstr "" ∧
    resolveName (some recC3) = JSVal.vstr "A" ∧
    JSVal.vstr "A" ≠ JSVal.vstr "" := by decide

/-- C3 (amended): the resolved display name is the first truthy value among
the `source`, `title`, `file`, `filename` keys in that order — a present
key holding a falsy value (null, undefined, empty string, 0, false) is
skipped — and the empty string when no key holds a truthy value. -/
theorem resolveName_first_truthy (r : Option SourceRecord) :
    resolveName r = ((fourVals r).find? truthy).getD (JSVal.vstr "") := by
  cases r with
  | none => rfl
  | some r =>
    simp only [resolveName, fourVals]
    by_cases h1 : truthy (jsGet r.source) <;>
      by_cases h2 : truthy (jsGet r.title) <;>
        by_cases h3 : truthy (jsGet r.file) <;>
          by_cases h4 : truthy (jsGet r.filename) <;>
            simp [orElseJS, List.find?, h1, h2, h3, h4]

/-- C4: `extractKbDigits` returns `null` exactly when the name is empty or
no position of the name matches the KB pattern, with the concrete examples
`"kb-42.txt"` (digit run too short) and `"no id here"`; every non-string
value is also rejected. -/
theorem extractKbDigits_none_iff (name : String) :
    (extractKbDigits name = none ↔ name = "" ∨ noKbOccurrence name.toList) ∧
    extractKbDigits "kb-42.txt" = none ∧
    extractKbDigits "no id here" = none ∧
    extractKbDigitsVal JSVal.vnull = none ∧
    extractKbDigitsVal JSVal.vundef = none ∧
    (∀ n, extractKbDigitsVal (JSVal.vnum n) = none) ∧
    (∀ b, extractKbDigitsVal (JSVal.vbool b) = none) := by
  refine ⟨?_, by decide, by decide, rfl, rfl, fun _ => rfl, fun _ => rfl⟩
  constructor
  · intro h
    by_cases he : name = ""
    · exact Or.inl he
    · right
      unfold extractKbDigits at h
      rw [if_neg he, Option.map_eq_none'] at h
      exact matchKb_none_iff.mp h
  · rintro (rfl | hno)
    · rfl
    · unfold extractKbDigits
      split
      · rfl
      · rw [matchKb_none_iff.mpr hno]
        rfl

/-- C5: the view and download links of an annotated source are both absent
when its KB id is absent; when the id is present, the view link is the KB
page base followed by the encoded id and the download link is the download
base followed by the encoded id, and encoding the id is the identity (the
id is all digits), so both links end in the same normalized id. -/
theorem annotateOne_urls (nm : JSVal) :
    ((annotateOne nm).kbId = none →
      (annotateOne nm).viewUrl = none ∧ (annotateOne nm).downloadUrl = none) ∧
    ∀ p, (annotateOne nm).kbId = some p →
      (annotateOne nm).viewUrl = some (kbViewBase ++ encodeURIComponent p) ∧
      (annotateOne nm).downloadUrl = some (kbDownloadBase ++ encodeURIComponent p) ∧
      encodeURIComponent p = p := by
  cases hv : extractKbDigitsVal nm with
  | none =>
    constructor
    · intro _
      exact ⟨by simp [annotateOne, hv], by simp [annotateOne, hv]⟩
    · intro p hp
      simp [annotateOne, hv] at hp
  | some p0 =>
    rcases extractVal_some hv with ⟨s, rfl, hs⟩
    have hne : p0 ≠ "" := extract_some_ne_empty hs
    have hdig := extract_some_digits hs
    constructor
    · intro hk
      simp [annotateOne, hv, hne] at hk
    · intro p hp
      have hk : (annotateOne (JSVal.vstr s)).kbId = some p0 := by
        simp [annotateOne, hv, hne]
      rw [hp] at hk
      obtain rfl := Option.some.inj hk
      have henc : encodeURIComponent p = p := encodeURIComponent_of_digits hdig
      refine ⟨?_, ?_, henc⟩
      · simp [annotateOne, hv, hne]
      · simp [annotateOne, hv, hne]

/-- C6: counterexample — a record whose `source` key holds the truthy
non-string number 42 is annotated with display name 42, not with the
empty-string display name the claim assigns to records with non-string
name fields. -/
theorem annotate_nonstring_name_cex :
    annotate [some recNum] = [⟨JSVal.vnum 42, none, none, none⟩] ∧
    JSVal.vnum 42 ≠ JSVal.vstr "" := by decide

/-- C6 (amended): annotation is total and never fails; a record all of
whose candidate name fields are absent or falsy resolves to the
empty-string display name and is annotated normally, while a truthy
non-string field value becomes the display name itself. -/
theorem resolveName_falsy_default (r : Option SourceRecord)
    (h : ((fourVals r).all fun v => !truthy v) = true) :
    resolveName r = JSVal.vstr "" ∧ annotate [r] = [annotateOne (JSVal.vstr "")] := by
  have h0 : resolveName r = JSVal.vstr "" := by
    cases r with
    | none => rfl
    | some r =>
      rw [List.all_eq_true] at h
      have h1 : truthy (jsGet r.source) = false := by
        have := h (jsGet r.source) (by simp [fourVals])
        simpa using this
      have h2 : truthy (jsGet r.title) = false := by
        have := h (jsGet r.title) (by simp [fourVals])
        simpa using this
      have h3 : truthy (jsGet r.file) = false := by
        have := h (jsGet r.file) (by simp [fourVals])
        simpa using this
      have h4 : truthy (jsGet r.filename) = false := by
        have := h (jsGet r.filename) (by simp [fourVals])
        simpa using this
      simp [resolveName, orElseJS, h1, h2, h3, h4]
  refine ⟨h0, ?_⟩
  simp [annotate, dedupNames, dedupAux, h0]

/-- Witness for C6 at a record whose present keys hold a null, an empty
string and a zero. -/
theorem resolveName_falsy_default_witness :
    (((fourVals (some recFalsy)).all fun v => !truthy v) = true) ∧
    (resolveName (some recFalsy) = JSVal.vstr "" ∧
      annotate [some recFalsy] = [annotateOne (JSVal.vstr "")]) :=
  ⟨by decide, resolveName_falsy_default (some recFalsy) (by decide)⟩

/-- C7: annotation and extraction are deterministic and free of hidden
state — with the module state threaded explicitly, the result never depends
on the state, the state is returned unchanged, and interleaving or
repeating calls does not change any result. -/
theorem annotate_extract_pure (st st2 : GlobalState) (rs : List (Option SourceRecord))
    (v : JSVal) :
    (runAnnotate st rs).1 = (runAnnotate st2 rs).1 ∧
    (runAnnotate st rs).2 = st ∧
    (runExtract st v).1 = (runExtract st2 v).1 ∧
    (runExtract st v).2 = st ∧
    (runAnnotate ((runExtract st v).2) rs).1 = (runAnnotate st rs).1 ∧
    (runAnnotate ((runAnnotate st rs).2) rs).1 = (runAnnotate st rs).1 :=
  ⟨rfl, rfl, rfl, rfl, rfl, rfl⟩

/-- C8: a non-null result of `extractKbDigits` consists only of decimal
digits, and its length is exactly the maximum of 9 and the length of the
matched digit run after the leading-zero stripping step (which keeps an
all-zero run whole); in particular the length is always at least 9. -/
theorem extractKbDigits_shape (name p : String) (h : extractKbDigits name = some p) :
    p.toList.all Char.isDigit = true ∧ 9 ≤ p.length ∧
    ∃ run, matchKb name.toList = some run ∧ p.length = max 9 (rawDigits run).length := by
  refine ⟨?_, ?_, extract_some_length h⟩
  · rw [List.all_eq_true]
    intro c hc
    exact extract_some_digits h c hc
  · rcases extract_some_length h with ⟨run, _, hl⟩
    rw [hl]
    exact le_max_left _ _

/-- Witness for C8 at the spec's own example filename. -/
theorem extractKbDigits_shape_witness :
    extractKbDigits "KB_000123456.pdf" = some "000123456" ∧
    (("000123456" : String).toList.all Char.isDigit = true ∧
      9 ≤ ("000123456" : String).length ∧
      ∃ run, matchKb ("KB_000123456.pdf" : String).toList = some run ∧
        ("000123456" : String).length = max 9 (rawDigits run).length) :=
  ⟨by decide, extractKbDigits_shape "KB_000123456.pdf" "000123456" (by decide)⟩

/-- C9: counterexample — a response whose `error` key is present but holds
the falsy empty string is treated as success: the history grows by one
pair although a backend-reported error field is present. -/
theorem sendQuestion_error_present_cex :
    dErrEmpty.error = some (JSVal.vstr "") ∧
    sendQuestionHist [] "hi" (FetchResult.ok dErrEmpty) = [("hi", JSVal.vstr "A")] ∧
    ([("hi", JSVal.vstr "A")] : List (String × JSVal)) ≠ ([] : List (String × JSVal)) := by
  decide

/-- C9 (amended): for a non-blank question, one turn leaves the history
unchanged when the request throws or `data.error` is truthy, appends
exactly the one `[question, answer]` pair when `data.error` is falsy (a
present but falsy error field counts as success), and in every case either
leaves the history unchanged or appends exactly one pair. -/
theorem sendQuestion_history_spec (hist : List (String × JSVal)) (input : String)
    (r : FetchResult) (h : jsTrim input ≠ "") :
    sendQuestionHist hist input FetchResult.thrown = hist ∧
    (∀ d, truthy (jsGet d.error) = true → sendQuestionHist hist input (FetchResult.ok d) = hist) ∧
    (∀ d, truthy (jsGet d.error) = false →
      sendQuestionHist hist input (FetchResult.ok d) = hist ++ [(jsTrim input, answerOf d)]) ∧
    (sendQuestionHist hist input r = hist ∨
      ∃ pr, sendQuestionHist hist input r = hist ++ [pr]) := by
  refine ⟨?_, ?_, ?_, ?_⟩
  · simp [sendQuestionHist, h]
  · intro d hd
    simp [sendQuestionHist, h, hd]
  · intro d hd
    simp [sendQuestionHist, h, hd]
  · unfold sendQuestionHist
    rw [if_neg h]
    cases r with
    | thrown => exact Or.inl rfl
    | ok d =>
      by_cases hd : truthy (jsGet d.error) = true
      · left
        simp [hd]
      · right
        exact ⟨(jsTrim input, answerOf d), by simp [hd]⟩

/-- Witness for C9 at the non-blank question "hi" and a thrown request. -/
theorem sendQuestion_history_spec_witness :
    jsTrim "hi" ≠ "" ∧
    (sendQuestionHist [] "hi" FetchResult.thrown = [] ∧
      (∀ d, truthy (jsGet d.error) = true → sendQuestionHist [] "hi" (FetchResult.ok d) = []) ∧
      (∀ d, truthy (jsGet d.error) = false →
        sendQuestionHist [] "hi" (FetchResult.ok d) = [] ++ [(jsTrim "hi", answerOf d)]) ∧
      (sendQuestionHist [] "hi" FetchResult.thrown = [] ∨
        ∃ pr, sendQuestionHist [] "hi" FetchResult.thrown = [] ++ [pr])) :=
  ⟨by decide, sendQuestion_history_spec [] "hi" FetchResult.thrown (by decide)⟩

/-- C10: the output of `escapeHtml` on any value contains no angle bracket
and neither quote character (the ampersand is escaped first, so the
entities it introduces are never re-escaped), and every non-string input
yields the empty string. -/
theorem escapeHtml_safe (v : JSVal) :
    ((escapeHtml v).toList.all fun c =>
      decide (c ≠ '<' ∧ c ≠ '>' ∧ c ≠ quotChar ∧ c ≠ aposChar)) = true ∧
    escapeHtml JSVal.vnull = "" ∧ escapeHtml JSVal.vundef = "" ∧
    (∀ n, escapeHtml (JSVal.vnum n) = "") ∧ (∀ b, escapeHtml (JSVal.vbool b) = "") := by
  refine ⟨?_, rfl, rfl, fun _ => rfl, fun _ => rfl⟩
  cases v with
  | vnull => decide
  | vundef => decide
  | vbool b =>
    rw [show escapeHtml (JSVal.vbool b) = "" from rfl]
    decide
  | vnum n =>
    rw [show escapeHtml (JSVal.vnum n) = "" from rfl]
    decide
  | vstr s =>
    rw [List.all_eq_true]
    intro c hc
    rw [decide_eq_true_eq]
    have hc1 : c ∈ replaceChar aposChar ("&#039;".toList)
        (replaceChar quotChar ("&quot;".toList)
          (replaceChar '>' ("&gt;".toList)
            (replaceChar '<' ("&lt;".toList)
              (replaceChar '&' ("&amp;".toList) s.toList)))) := hc
    rcases mem_replaceChar hc1 with h5 | ⟨h4c, hne4⟩
    · have hall : ∀ y ∈ ("&#039;".toList), y ≠ '<' ∧ y ≠ '>' ∧ y ≠ quotChar ∧ y ≠ aposChar := by
        decide
      exact hall c h5
    · rcases mem_replaceChar h4c with h4 | ⟨h3c, hne3⟩
      · have hall : ∀ y ∈ ("&quot;".toList), y ≠ '<' ∧ y ≠ '>' ∧ y ≠ quotChar ∧ y ≠ aposChar := by
          decide
        exact hall c h4
      · rcases mem_replaceChar h3c with h3 | ⟨h2c, hne2⟩
        · have hall : ∀ y ∈ ("&gt;".toList), y ≠ '<' ∧ y ≠ '>' ∧ y ≠ quotChar ∧ y ≠ aposChar := by
            decide
          exact hall c h3
        · rcases mem_replaceChar h2c with h2 | ⟨h1c, hne1⟩
          · have hall : ∀ y ∈ ("&lt;".toList), y ≠ '<' ∧ y ≠ '>' ∧ y ≠ quotChar ∧ y ≠ aposChar := by
              decide
            exact hall c h2
          · rcases mem_replaceChar h1c with h1 | ⟨_, _⟩
            · have hall : ∀ y ∈ ("&amp;".toList),
                  y ≠ '<' ∧ y ≠ '>' ∧ y ≠ quotChar ∧ y ≠ aposChar := by
                decide
              exact hall c h1
            · exact ⟨hne1, hne2, hne3, hne4⟩
